import Mathlib

/-
Verification of the attribute aggregation engine of the sumologic-otel-collector
sumologicschemaprocessor package.

Embedding notes.
* Go strings are byte sequences; we model them as lists of natural numbers
  (each intended to be < 256).  This keeps the model faithful on inputs that
  are not valid UTF-8, which matters for the pattern compiler.
* The rule compiler (newAggregateAttributesProcessor, pairToAggregation) is
  embedded from src/pkg/processor/sumologicschemaprocessor/aggregate_attributes_processor.go.
  Its regexp library calls (regexp.QuoteMeta, strings.Replace, regexp.Compile)
  are modelled byte for byte on the restricted class of expressions the
  processor actually produces: sequences of escaped literals and of the
  capturing group (.*).
* The compiled patterns are represented by the type CompiledRegex below: a
  sequence of literal bytes and capturing wildcards.  Matching follows the Go
  regexp semantics for this class: unanchored search returning the leftmost
  match, with greedy wildcards resolved in backtracking order.  The dot in
  (.*) is modelled as matching any byte except the newline byte 0x0A, which
  is how the Go engine behaves on this class of expressions.
* The aggregation executor itself (the processAttributes scan) and the
  per-metric-shape dispatch (processMetricLevelAttributes) are not present in
  this snapshot of the repository: the aggregateAttributes method body is an
  empty stub and only the tests refer to processAttributes and
  processMetricLevelAttributes.  Those two functions are therefore modelled
  from the specification (sections 4.2 and 4.3) and are marked as such in
  their doc comments.
-/

/-- A Go string, viewed as its byte sequence. -/
abbrev GoStr := List Nat

/-- One element of a compiled pattern: a literal byte, or the capturing
wildcard produced from a `*` of the source pattern (the group `(.*)`). -/
inductive Seg where
  | lit (b : Nat)
  | wild
  deriving DecidableEq

/-- A compiled pattern, modelling the `regexp.Regexp` values the processor
builds: a sequence of literal bytes and capturing wildcards. -/
abbrev CompiledRegex := List Seg

/-- The bytes regexp.QuoteMeta escapes: the Go regexp metacharacters
backslash, dot, plus, star, question mark, parentheses, pipe, square
brackets, curly brackets, caret and dollar. -/
def specialBytes : List Nat :=
  [0x5C, 0x2E, 0x2B, 0x2A, 0x3F, 0x28, 0x29, 0x7C, 0x5B, 0x5D, 0x7B, 0x7D, 0x5E, 0x24]

/-- Model of Go regexp.QuoteMeta: prefix every special byte with a
backslash (0x5C); all other bytes pass through unchanged. -/
def quoteMeta : GoStr → GoStr
  | [] => []
  | b :: rest =>
      if b ∈ specialBytes then 0x5C :: b :: quoteMeta rest
      else b :: quoteMeta rest

/-- Model of the call strings.Replace(s, backslash-star, left-paren dot star
right-paren, -1) in pairToAggregation: replace every non-overlapping
occurrence of the two bytes 0x5C 0x2A, scanning left to right, by the four
bytes 0x28 0x2E 0x2A 0x29. -/
def replaceEscStar : GoStr → GoStr
  | [] => []
  | [b] => [b]
  | b :: c :: rest =>
      if b = 0x5C ∧ c = 0x2A then 0x28 :: 0x2E :: 0x2A :: 0x29 :: replaceEscStar rest
      else b :: replaceEscStar (c :: rest)

/-- Syntactic part of the Go regexp compiler, restricted to the class of
expressions pairToAggregation produces: an escaped special byte is a
literal, the group (.*) is a capturing wildcard, any other non-special byte
is a literal.  A stray metacharacter is rejected; the processor never
produces one. -/
def parseSegsCore : GoStr → Except String CompiledRegex
  | [] => Except.ok []
  | b :: rest =>
      if b = 0x28 then
        match rest with
        | 0x2E :: 0x2A :: 0x29 :: rest2 => (parseSegsCore rest2).map (fun segs => Seg.wild :: segs)
        | _ => Except.error ("regexp: unsupported group")
      else if b = 0x5C then
        match rest with
        | c :: rest2 =>
            if c ∈ specialBytes then (parseSegsCore rest2).map (fun segs => Seg.lit c :: segs)
            else Except.error ("regexp: invalid escape sequence")
        | [] => Except.error ("regexp: trailing backslash at end of expression")
      else if b ∈ specialBytes then Except.error ("regexp: unexpected metacharacter")
      else (parseSegsCore rest).map (fun segs => Seg.lit b :: segs)

/-- Constraint table for UTF-8 lead bytes, following
the Go utf8 decoder exactly: the result is none for an invalid lead byte,
and otherwise gives the number of continuation bytes together with the
admissible range of the first continuation byte (the remaining continuation
bytes always range over 0x80 to 0xBF). -/
def leadSpec (b : Nat) : Option (Nat × Nat × Nat) :=
  if b ≤ 0x7F then some (0, 0, 0)
  else if 0xC2 ≤ b ∧ b ≤ 0xDF then some (1, 0x80, 0xBF)
  else if b = 0xE0 then some (2, 0xA0, 0xBF)
  else if 0xE1 ≤ b ∧ b ≤ 0xEC then some (2, 0x80, 0xBF)
  else if b = 0xED then some (2, 0x80, 0x9F)
  else if 0xEE ≤ b ∧ b ≤ 0xEF then some (2, 0x80, 0xBF)
  else if b = 0xF0 then some (3, 0x90, 0xBF)
  else if 0xF1 ≤ b ∧ b ≤ 0xF3 then some (3, 0x80, 0xBF)
  else if b = 0xF4 then some (3, 0x80, 0x8F)
  else none

/-- Range check for a continuation byte. -/
def contOK (lo hi c : Nat) : Bool :=
  decide (lo ≤ c ∧ c ≤ hi)

/-- Validity of a byte sequence as UTF-8, with the exact acceptance of the Go
utf8 decoder (no overlong forms, no surrogates, no code points beyond
0x10FFFF). The Go regexp compiler rejects patterns that fail this check. -/
def validUTF8 : List Nat → Bool
  | [] => true
  | b :: rest =>
      match leadSpec b with
      | none => false
      | some (0, _, _) => validUTF8 rest
      | some (1, lo, hi) =>
          match rest with
          | c1 :: r => contOK lo hi c1 && validUTF8 r
          | [] => false
      | some (2, lo, hi) =>
          match rest with
          | c1 :: c2 :: r => contOK lo hi c1 && contOK 0x80 0xBF c2 && validUTF8 r
          | _ => false
      | some (3, lo, hi) =>
          match rest with
          | c1 :: c2 :: c3 :: r =>
              contOK lo hi c1 && contOK 0x80 0xBF c2 && contOK 0x80 0xBF c3 && validUTF8 r
          | _ => false
      | some (_ + 4, _, _) => false

/-- Model of Go regexp.Compile on the restricted class of expressions the
processor produces.  Compilation fails on a pattern that is not valid UTF-8
(the Go parser returns the invalid UTF-8 error) and on a stray
metacharacter; otherwise it returns the compiled segment list. -/
def regexpCompile (s : GoStr) : Except String CompiledRegex :=
  if validUTF8 s then parseSegsCore s else Except.error ("error parsing regexp: invalid UTF-8")

/-- Encoding of one code point as UTF-8 bytes. -/
def utf8Encode (c : Nat) : List Nat :=
  if c < 0x80 then [c]
  else if c < 0x800 then [0xC0 + c / 0x40, 0x80 + c % 0x40]
  else if c < 0x10000 then
    [0xE0 + c / 0x1000, 0x80 + (c / 0x40) % 0x40, 0x80 + c % 0x40]
  else
    [0xF0 + c / 0x40000, 0x80 + (c / 0x1000) % 0x40, 0x80 + (c / 0x40) % 0x40, 0x80 + c % 0x40]

/-- The byte sequence of a Lean string literal, used to write concrete Go
strings in the statements below. -/
def strBytes (s : String) : GoStr :=
  (s.toList.map (fun c => utf8Encode c.toNat)).flatten

/-- Attribute values of the pipeline attribute-collection type (pcommon), as
a closed tagged union.  The engine never inspects a value: values are only
copied and regrouped.  The floating point variant of pcommon is omitted;
no verified statement depends on value payloads. -/
inductive AttributeValue where
  | empty
  | str (s : GoStr)
  | int (i : Int)
  | bool (b : Bool)
  | bytes (bs : GoStr)
  | map (entries : List (GoStr × AttributeValue))

/-- An attribute collection: an insertion-ordered mapping from keys to
values, as pcommon.Map is (a slice of key-value pairs iterated in order). -/
abbrev AttrMap := List (GoStr × AttributeValue)

/-- Lookup of a key in an attribute collection (first matching entry). -/
def mapLookup : AttrMap → GoStr → Option AttributeValue
  | [], _ => none
  | (k, v) :: rest, key => if k = key then some v else mapLookup rest key

/-- Insertion in the pcommon style: if the key is present its value is
replaced in place, otherwise the pair is appended at the end. -/
def mapPut : AttrMap → GoStr → AttributeValue → AttrMap
  | [], key, v => [(key, v)]
  | (k, w) :: rest, key, v =>
      if k = key then (key, v) :: rest else (k, w) :: mapPut rest key v

/-- Lookup one level inside a nested map value. -/
def lookupNested (m : AttrMap) (k1 k2 : GoStr) : Option AttributeValue :=
  match mapLookup m k1 with
  | some (AttributeValue.map tm) => mapLookup tm k2
  | _ => none

/-- Model of strings.Join(captures, underscore): concatenate the captured
substrings with the byte 0x5F between consecutive ones. -/
def joinUnderscore : List GoStr → GoStr
  | [] => []
  | [s] => s
  | s :: rest => s ++ 0x5F :: joinUnderscore rest

/-- One wildcard attempt: capture the first k bytes of s if they are free of
the newline byte, then continue with the rest of the input.  The Go dot
matches any character except newline, which on byte sequences is exactly
the bytes other than 0x0A. -/
def tryCap (f : List Nat → Option (List GoStr)) (s : List Nat) (k : Nat) :
    Option (List GoStr) :=
  if 0x0A ∈ s.take k then none
  else (f (s.drop k)).map (fun caps => s.take k :: caps)

/-- Greedy wildcard search: try capture lengths n, n-1, ..., 0 in that
order and return the first success, mirroring the backtracking preference of
the Go engine where a greedy wildcard takes the longest viable capture. -/
def tryWildDown (f : List Nat → Option (List GoStr)) (s : List Nat) : Nat → Option (List GoStr)
  | 0 => tryCap f s 0
  | k + 1 =>
      match tryCap f s (k + 1) with
      | some r => some r
      | none => tryWildDown f s k

/-- Matching of a compiled pattern at the current position: returns the list
of wildcard captures of the match that a backtracking search starting here
finds first (greedy wildcards), or none.  The match consumes a prefix of the
input, as an unanchored Go regexp match does. -/
def matchHere : CompiledRegex → List Nat → Option (List GoStr)
  | [], _ => some []
  | Seg.lit _ :: _, [] => none
  | Seg.lit b :: rest, d :: ds => if d = b then matchHere rest ds else none
  | Seg.wild :: rest, s => tryWildDown (fun t => matchHere rest t) s s.length

/-- Model of Regexp.FindStringSubmatch restricted to the submatch list
(matches[1:] in the executor): unanchored search for the leftmost position
at which the pattern matches, returning the captures of that match. -/
def findFrom (segs : CompiledRegex) : List Nat → Option (List GoStr)
  | [] => matchHere segs []
  | s@(_ :: rest) =>
      match matchHere segs s with
      | some caps => some caps
      | none => findFrom segs rest

/-- Wildcard split search used by the whole-string matching predicate. -/
def anySplitCap (g : List Nat → Bool) (s : List Nat) : Nat → Bool
  | 0 => !decide (0x0A ∈ s.take 0) && g (s.drop 0)
  | k + 1 =>
      (!decide (0x0A ∈ s.take (k + 1)) && g (s.drop (k + 1))) || anySplitCap g s k

/-- Whole-string matching: the compiled pattern matches the byte sequence in
its entirety (wildcards may take any newline-free byte run).  This is the
reference notion of a match of the pattern used to state that the compiled
matcher is unanchored. -/
def exactMatch : CompiledRegex → List Nat → Bool
  | [], s => s.isEmpty
  | Seg.lit _ :: _, [] => false
  | Seg.lit b :: rest, d :: ds => decide (d = b) && exactMatch rest ds
  | Seg.wild :: rest, s => anySplitCap (fun t => exactMatch rest t) s s.length

/-- Embeds aggregationPair of config.go: one configured rule, a target
attribute name and the list of wildcard patterns (the prefixes field). -/
structure aggregationPair where
  Attribute : GoStr
  Patterns : List GoStr
  deriving DecidableEq

/-- Embeds the aggregation struct of aggregate_attributes_processor.go: the
target attribute name and the compiled patterns. -/
structure aggregation where
  «attribute» : GoStr
  patternRegexes : List CompiledRegex
  deriving DecidableEq

/-- Embeds the aggregateAttributesProcessor struct: the compiled rules in
configured order. -/
structure aggregateAttributesProcessor where
  aggregations : List aggregation
  deriving DecidableEq

/-- The compilation loop of pairToAggregation over the pattern list: quote
the metacharacters, replace every escaped star by the capturing group, and
compile; the first compile error aborts the loop and is returned. -/
def compileLoop : List GoStr → Except String (List CompiledRegex)
  | [] => Except.ok []
  | p :: rest =>
      match regexpCompile (replaceEscStar (quoteMeta p)) with
      | Except.error e => Except.error e
      | Except.ok regex => (compileLoop rest).map (fun regexes => regex :: regexes)

/-- Embeds pairToAggregation of aggregate_attributes_processor.go. -/
def pairToAggregation (pair : aggregationPair) : Except String aggregation :=
  (compileLoop pair.Patterns).map (fun regexes => aggregation.mk pair.Attribute regexes)

/-- The construction loop of newAggregateAttributesProcessor over the
configured pairs: compile each pair in order, returning the first error
unchanged. -/
def buildAggregations : List aggregationPair → Except String (List aggregation)
  | [] => Except.ok []
  | pair :: rest =>
      match pairToAggregation pair with
      | Except.error e => Except.error e
      | Except.ok agg => (buildAggregations rest).map (fun aggs => agg :: aggs)

/-- Embeds newAggregateAttributesProcessor of
aggregate_attributes_processor.go. -/
def newAggregateAttributesProcessor (config : List aggregationPair) :
    Except String aggregateAttributesProcessor :=
  (buildAggregations config).map aggregateAttributesProcessor.mk

/-- Embeds the isEnabled method: the processor is active exactly when the
compiled rule list is non-empty. -/
def aggregateAttributesProcessor.isEnabled (proc : aggregateAttributesProcessor) : Bool :=
  proc.aggregations.length != 0

/-- Modelled from the spec (section 4.2, step 2): the scan of one pattern
over the current top-level collection; processAttributes is absent from this
snapshot of the repository (only its tests are present).  Returns the
derived keys and the extracted values of the keys that match, in iteration
order, together with the fresh output collection holding the non-matching
pairs unchanged. -/
def scanPattern (regex : CompiledRegex) : AttrMap → List GoStr × List AttributeValue × AttrMap
  | [] => ([], [], [])
  | (k, v) :: rest =>
      let scanned := scanPattern regex rest
      match findFrom regex k with
      | some submatches => (joinUnderscore submatches :: scanned.1, v :: scanned.2.1, scanned.2.2)
      | none => (scanned.1, scanned.2.1, (k, v) :: scanned.2.2)

/-- Modelled from the spec (section 4.2, step 2): scan the patterns of one
rule in configured order, each pattern scanning the collection the previous
one left, appending to the extraction buffer of the rule; returns the
accumulated derived keys, the accumulated values, and the final top-level
collection. -/
def ruleScan : List CompiledRegex → AttrMap → List GoStr × List AttributeValue × AttrMap
  | [], m => ([], [], m)
  | regex :: rest, m =>
      let scanned := scanPattern regex m
      let further := ruleScan rest scanned.2.2
      (scanned.1 ++ further.1, scanned.2.1 ++ further.2.1, further.2.2)

/-- Modelled from the spec (section 4.2, step 3): write the extraction
buffer pairs into a fresh nested map in extraction order; for a repeated
derived key the later write wins. -/
def buildTarget (pairs : List (GoStr × AttributeValue)) : AttrMap :=
  pairs.foldl (fun tm pair => mapPut tm pair.1 pair.2) []

/-- Modelled from the spec (section 4.2, steps 1 to 5): process one rule.
If nothing matched, the collection is left as scanned; otherwise the target
attribute is created (overwriting a pre-existing key of that name) with the
accumulated pairs; a mismatch between the number of derived keys and the
number of values is the structural error. -/
def processAggregation (agg : aggregation) (m : AttrMap) : Except String AttrMap :=
  let scanned := ruleScan agg.patternRegexes m
  if scanned.1.isEmpty then Except.ok scanned.2.2
  else if scanned.1.length = scanned.2.1.length then
    Except.ok (mapPut scanned.2.2 agg.«attribute»
      (AttributeValue.map (buildTarget (scanned.1.zip scanned.2.1))))
  else Except.error ("aggregate_attributes processor: mismatched names and values")

/-- The rule loop of the executor: apply the rules in configured order,
propagating a structural error. -/
def processList : List aggregation → AttrMap → Except String AttrMap
  | [], m => Except.ok m
  | agg :: rest, m =>
      match processAggregation agg m with
      | Except.ok m2 => processList rest m2
      | Except.error e => Except.error e

/-- Modelled from the spec (section 4.2): the aggregation executor applied
to one attribute collection; absent from this snapshot of the repository. -/
def aggregateAttributesProcessor.processAttributes
    (proc : aggregateAttributesProcessor) (m : AttrMap) : Except String AttrMap :=
  processList proc.aggregations m

/-- Modelled from the spec (sections 4.3 and 9): a metric record as a closed
tagged union over the five data-point-bearing shapes and the empty shape,
carrying the per-data-point attribute collections. -/
inductive MetricData where
  | empty
  | sum (dps : List AttrMap)
  | gauge (dps : List AttrMap)
  | histogram (dps : List AttrMap)
  | exponentialHistogram (dps : List AttrMap)
  | summary (dps : List AttrMap)

/-- The data-point loop of the metric dispatch: apply the executor to every
data-point attribute collection in order, propagating an error. -/
def processDps (proc : aggregateAttributesProcessor) :
    List AttrMap → Except String (List AttrMap)
  | [] => Except.ok []
  | dp :: rest =>
      match proc.processAttributes dp with
      | Except.error e => Except.error e
      | Except.ok dp2 => (processDps proc rest).map (fun dps => dp2 :: dps)

/-- Modelled from the spec (section 4.3): processMetricLevelAttributes is
absent from this snapshot of the repository (only its tests are present).
Dispatch on the metric shape, apply the executor once per data point of the
shape, and do nothing for a metric with no recognized shape. -/
def processMetricLevelAttributes (proc : aggregateAttributesProcessor) :
    MetricData → Except String MetricData
  | MetricData.empty => Except.ok MetricData.empty
  | MetricData.sum dps => (processDps proc dps).map MetricData.sum
  | MetricData.gauge dps => (processDps proc dps).map MetricData.gauge
  | MetricData.histogram dps => (processDps proc dps).map MetricData.histogram
  | MetricData.exponentialHistogram dps => (processDps proc dps).map MetricData.exponentialHistogram
  | MetricData.summary dps => (processDps proc dps).map MetricData.summary

/-- The total version of the executor used to state that the metric
dispatch never fails: the collection the executor returns, or the input
collection if the executor were to fail (it does not). -/
def applyOrSelf (proc : aggregateAttributesProcessor) (m : AttrMap) : AttrMap :=
  match proc.processAttributes m with
  | Except.ok r => r
  | Except.error _ => m

/-- Shape-preserving map over the data points of a metric record. -/
def mapDataPoints (f : AttrMap → AttrMap) : MetricData → MetricData
  | MetricData.empty => MetricData.empty
  | MetricData.sum dps => MetricData.sum (dps.map f)
  | MetricData.gauge dps => MetricData.gauge (dps.map f)
  | MetricData.histogram dps => MetricData.histogram (dps.map f)
  | MetricData.exponentialHistogram dps => MetricData.exponentialHistogram (dps.map f)
  | MetricData.summary dps => MetricData.summary (dps.map f)

/-- The captures of the first pattern of a rule that matches a key, in
configured pattern order: the pattern scan that consumes the key during the
processing of the rule. -/
def firstMatchCaps : List CompiledRegex → GoStr → Option (List GoStr)
  | [], _ => none
  | regex :: rest, k =>
      match findFrom regex k with
      | some caps => some caps
      | none => firstMatchCaps rest k

/-! Concrete fixtures used by several of the statements below. -/

/-- The configured rule of the single-wildcard example: attribute pods,
prefixes pod_*. -/
def podPair : aggregationPair :=
  aggregationPair.mk (strBytes ("pods")) [strBytes ("pod_*")]

/-- The compiled form of the pattern pod_*. -/
def podRegex : CompiledRegex :=
  [Seg.lit 0x70, Seg.lit 0x6F, Seg.lit 0x64, Seg.lit 0x5F, Seg.wild]

/-- The processor compiled from podPair. -/
def podProc : aggregateAttributesProcessor :=
  aggregateAttributesProcessor.mk [aggregation.mk (strBytes ("pods")) [podRegex]]

/-- The input collection of the single-wildcard example. -/
def c1Input : AttrMap :=
  [(strBytes ("pod_first"), AttributeValue.str (strBytes ("first"))),
   (strBytes ("pod_second"), AttributeValue.str (strBytes ("second"))),
   (strBytes ("pod_third"), AttributeValue.str (strBytes ("third")))]

/-- The expected output collection of the single-wildcard example. -/
def c1Output : AttrMap :=
  [(strBytes ("pods"), AttributeValue.map
    [(strBytes ("first"), AttributeValue.str (strBytes ("first"))),
     (strBytes ("second"), AttributeValue.str (strBytes ("second"))),
     (strBytes ("third"), AttributeValue.str (strBytes ("third")))])]

/-- The byte-to-segment translation that compilation realizes: a star byte
becomes the capturing wildcard, any other byte a literal. -/
def starToWild (b : Nat) : Seg :=
  if b = 0x2A then Seg.wild else Seg.lit b

/-- What one source byte contributes to the compiled expression: stars give
the group, other special bytes their escape, plain bytes themselves. -/
def compiledPiece (b : Nat) : GoStr :=
  if b = 0x2A then [0x28, 0x2E, 0x2A, 0x29]
  else if b ∈ specialBytes then [0x5C, b]
  else [b]

/-- The compiled form of the pattern *_pod_*. -/
def multiRegex : CompiledRegex :=
  [Seg.wild, Seg.lit 0x5F, Seg.lit 0x70, Seg.lit 0x6F, Seg.lit 0x64, Seg.lit 0x5F, Seg.wild]

/-- A configured rule whose single pattern is the byte 0xFF, a Go string
that is not valid UTF-8: its compilation fails. -/
def badPair : aggregationPair :=
  aggregationPair.mk (strBytes ("bad")) [[0xFF]]

/-- Counterexample fixtures for the per-rule invariant: one rule with the
two patterns q_* and p_* and the target attribute agg, applied to the
collection with keys q_x and p_x whose derived keys collide. -/
def cexAgg : aggregation :=
  aggregation.mk (strBytes ("agg"))
    [[Seg.lit 0x71, Seg.lit 0x5F, Seg.wild], [Seg.lit 0x70, Seg.lit 0x5F, Seg.wild]]

/-- The colliding input collection of the counterexample. -/
def cexMap : AttrMap :=
  [(strBytes ("q_x"), AttributeValue.str (strBytes ("1"))),
   (strBytes ("p_x"), AttributeValue.str (strBytes ("2")))]

/-- The collection the counterexample rule produces. -/
def cexOut : AttrMap :=
  [(strBytes ("agg"), AttributeValue.map
    [(strBytes ("x"), AttributeValue.str (strBytes ("2")))])]

/-- Second counterexample fixture: a rule whose target name p_x is itself a
key matched by its pattern p_*. -/
def cexAgg2 : aggregation :=
  aggregation.mk (strBytes ("p_x")) [[Seg.lit 0x70, Seg.lit 0x5F, Seg.wild]]

/-- The input collection whose single key p_x both matches the pattern and
equals the target name. -/
def cexMap2 : AttrMap :=
  [(strBytes ("p_x"), AttributeValue.str (strBytes ("2")))]

/-- The collection the second counterexample rule produces: the matched key
p_x stays present at top level, now holding the nested map. -/
def cexOut2 : AttrMap :=
  [(strBytes ("p_x"), AttributeValue.map
    [(strBytes ("x"), AttributeValue.str (strBytes ("2")))])]

/-- Claim C1: for the input collection with keys pod_first, pod_second,
pod_third and the single rule with attribute pods and prefix pod_*, the
aggregation executor produces exactly the collection with the single key
pods holding the nested map of the three stripped keys, and none of the
three original keys remains addressable at the top level. -/
theorem claim_c1 :
    newAggregateAttributesProcessor [podPair] = Except.ok podProc ∧
    podProc.processAttributes c1Input = Except.ok c1Output ∧
    mapLookup c1Output (strBytes ("pod_first")) = none ∧
    mapLookup c1Output (strBytes ("pod_second")) = none ∧
    mapLookup c1Output (strBytes ("pod_third")) = none ∧
    lookupNested c1Output (strBytes ("pods")) (strBytes ("first"))
      = some (AttributeValue.str (strBytes ("first"))) ∧
    lookupNested c1Output (strBytes ("pods")) (strBytes ("second"))
      = some (AttributeValue.str (strBytes ("second"))) ∧
    lookupNested c1Output (strBytes ("pods")) (strBytes ("third"))
      = some (AttributeValue.str (strBytes ("third"))) :=
  ⟨rfl, rfl, rfl, rfl, rfl, rfl, rfl, rfl⟩

/-- Claim C3: the derived key joins the wildcard captures left to right with
an underscore; the pattern *_pod_* applied to the key cool_pod_first
captures cool and first in that order and derives the key cool_first, as
the executor records it in its extraction buffer. -/
theorem claim_c3 :
    regexpCompile (replaceEscStar (quoteMeta (strBytes ("*_pod_*")))) = Except.ok multiRegex ∧
    findFrom multiRegex (strBytes ("cool_pod_first"))
      = some [strBytes ("cool"), strBytes ("first")] ∧
    joinUnderscore [strBytes ("cool"), strBytes ("first")] = strBytes ("cool_first") ∧
    (ruleScan [multiRegex]
      [(strBytes ("cool_pod_first"), AttributeValue.str (strBytes ("first")))]).1
      = [strBytes ("cool_first")] :=
  ⟨rfl, rfl, rfl, rfl⟩

/-- Claim C6: the engine reports itself active exactly when its compiled
rule list is non-empty. -/
theorem claim_c6 (proc : aggregateAttributesProcessor) :
    proc.isEnabled = true ↔ proc.aggregations ≠ [] := by
  simp [aggregateAttributesProcessor.isEnabled, List.length_eq_zero]

/-- Witness for claim C6 at a concrete processor. -/
theorem claim_c6_witness : podProc.isEnabled = true :=
  (claim_c6 podProc).mpr (by simp [podProc])

theorem scanPattern_length (regex : CompiledRegex) (m : AttrMap) :
    (scanPattern regex m).1.length = (scanPattern regex m).2.1.length := by
  induction m with
  | nil => rfl
  | cons kv rest ih =>
      obtain ⟨k, v⟩ := kv
      simp only [scanPattern]
      cases findFrom regex k <;> simp [ih]

theorem ruleScan_length (rgxs : List CompiledRegex) (m : AttrMap) :
    (ruleScan rgxs m).1.length = (ruleScan rgxs m).2.1.length := by
  induction rgxs generalizing m with
  | nil => rfl
  | cons regex rest ih =>
      simp [ruleScan, scanPattern_length, ih]

theorem processAggregation_ok (agg : aggregation) (m : AttrMap) :
    ∃ r, processAggregation agg m = Except.ok r := by
  simp only [processAggregation]
  split
  · exact ⟨_, rfl⟩
  · split
    · exact ⟨_, rfl⟩
    · next h2 => exact absurd (ruleScan_length _ _) h2

theorem processList_ok (aggs : List aggregation) (m : AttrMap) :
    ∃ r, processList aggs m = Except.ok r := by
  induction aggs generalizing m with
  | nil => exact ⟨m, rfl⟩
  | cons agg rest ih =>
      obtain ⟨r, hr⟩ := processAggregation_ok agg m
      obtain ⟨r2, hr2⟩ := ih r
      exact ⟨r2, by simp [processList, hr, hr2]⟩

theorem processAttributes_eq_applyOrSelf (proc : aggregateAttributesProcessor) (m : AttrMap) :
    proc.processAttributes m = Except.ok (applyOrSelf proc m) := by
  obtain ⟨r, hr⟩ := processList_ok proc.aggregations m
  have hp : proc.processAttributes m = Except.ok r := hr
  simp [applyOrSelf, hp]

theorem processDps_eq (proc : aggregateAttributesProcessor) (dps : List AttrMap) :
    processDps proc dps = Except.ok (dps.map (applyOrSelf proc)) := by
  induction dps with
  | nil => rfl
  | cons dp rest ih =>
      simp [processDps, processAttributes_eq_applyOrSelf, ih, Except.map]

/-- Claim C7: the metric dispatch applies the executor once per data-point
attribute collection, uniformly for the five data-point-bearing metric
shapes, returns success always, and maps a metric with no recognized shape
(and one with no data points) to itself. -/
theorem claim_c7 (proc : aggregateAttributesProcessor) (md : MetricData) :
    processMetricLevelAttributes proc md
      = Except.ok (mapDataPoints (applyOrSelf proc) md) := by
  cases md <;> simp [processMetricLevelAttributes, mapDataPoints, processDps_eq, Except.map]

theorem scanPattern_nomatch (regex : CompiledRegex) (m : AttrMap)
    (h : ∀ kv ∈ m, findFrom regex kv.1 = none) :
    scanPattern regex m = ([], [], m) := by
  induction m with
  | nil => rfl
  | cons kv rest ih =>
      obtain ⟨k, v⟩ := kv
      have hk : findFrom regex k = none := h (k, v) (List.mem_cons_self _ _)
      have hrest : scanPattern regex rest = ([], [], rest) :=
        ih (fun kv2 h2 => h kv2 (List.mem_cons_of_mem _ h2))
      simp [scanPattern, hk, hrest]

theorem ruleScan_nomatch (rgxs : List CompiledRegex) (m : AttrMap)
    (h : ∀ regex ∈ rgxs, ∀ kv ∈ m, findFrom regex kv.1 = none) :
    ruleScan rgxs m = ([], [], m) := by
  induction rgxs with
  | nil => rfl
  | cons regex rest ih =>
      have h1 : scanPattern regex m = ([], [], m) :=
        scanPattern_nomatch regex m (h regex (List.mem_cons_self _ _))
      have h2 : ruleScan rest m = ([], [], m) :=
        ih (fun rg hrg => h rg (List.mem_cons_of_mem _ hrg))
      simp [ruleScan, h1, h2]

theorem processList_nomatch (aggs : List aggregation) (m : AttrMap)
    (h : ∀ agg ∈ aggs, ∀ regex ∈ agg.patternRegexes, ∀ kv ∈ m, findFrom regex kv.1 = none) :
    processList aggs m = Except.ok m := by
  induction aggs with
  | nil => rfl
  | cons agg rest ih =>
      have h1 : processAggregation agg m = Except.ok m := by
        unfold processAggregation
        rw [ruleScan_nomatch agg.patternRegexes m (h agg (List.mem_cons_self _ _))]
        rfl
      have h2 : processList rest m = Except.ok m :=
        ih (fun a ha => h a (List.mem_cons_of_mem _ ha))
      simp [processList, h1, h2]

/-- Claim C8: when no key of the collection matches any pattern of any rule,
the executor returns the collection unchanged and creates no target
attribute. -/
theorem claim_c8 (proc : aggregateAttributesProcessor) (m : AttrMap)
    (h : ∀ agg ∈ proc.aggregations, ∀ regex ∈ agg.patternRegexes,
      ∀ kv ∈ m, findFrom regex kv.1 = none) :
    proc.processAttributes m = Except.ok m :=
  processList_nomatch proc.aggregations m h

/-- Witness for claim C8: the pod rule matches nothing in a collection with
an unrelated key, which passes through unchanged. -/
theorem claim_c8_witness :
    podProc.processAttributes [(strBytes ("unrelated"), AttributeValue.int 7)]
      = Except.ok [(strBytes ("unrelated"), AttributeValue.int 7)] :=
  claim_c8 podProc [(strBytes ("unrelated"), AttributeValue.int 7)] (by decide)

theorem special_le (b : Nat) (h : b ∈ specialBytes) : b ≤ 0x7D := by
  fin_cases h <;> decide

theorem quoteMeta_head_ne_star (p : GoStr) (b : Nat) (t : GoStr)
    (h : quoteMeta p = b :: t) : b ≠ 0x2A := by
  cases p with
  | nil => simp [quoteMeta] at h
  | cons c rest =>
      simp only [quoteMeta] at h
      by_cases hc : c ∈ specialBytes
      · rw [if_pos hc] at h
        injection h with h1 h2
        subst h1
        decide
      · rw [if_neg hc] at h
        injection h with h1 h2
        subst h1
        intro hb
        subst hb
        exact hc (by decide)

theorem replaceEscStar_cons_snd_ne (b c : Nat) (t : GoStr) (hc : c ≠ 0x2A) :
    replaceEscStar (b :: c :: t) = b :: replaceEscStar (c :: t) := by
  simp only [replaceEscStar]
  rw [if_neg (fun hcon => hc hcon.2)]

theorem replaceEscStar_cons_quoteMeta (b : Nat) (p : GoStr) :
    replaceEscStar (b :: quoteMeta p) = b :: replaceEscStar (quoteMeta p) := by
  cases hq : quoteMeta p with
  | nil => rfl
  | cons c t =>
      exact replaceEscStar_cons_snd_ne b c t (quoteMeta_head_ne_star p c t hq)

theorem replace_quoteMeta_cons (b : Nat) (p : GoStr) :
    replaceEscStar (quoteMeta (b :: p))
      = compiledPiece b ++ replaceEscStar (quoteMeta p) := by
  by_cases hstar : b = 0x2A
  · subst hstar
    have hsp : (0x2A : Nat) ∈ specialBytes := by decide
    simp only [quoteMeta, if_pos hsp, compiledPiece, if_pos rfl]
    simp [replaceEscStar]
  · by_cases hsp : b ∈ specialBytes
    · simp only [quoteMeta, if_pos hsp, compiledPiece, if_neg hstar, if_pos hsp]
      rw [replaceEscStar_cons_snd_ne _ _ _ hstar, replaceEscStar_cons_quoteMeta b p]
      rfl
    · simp only [quoteMeta, if_neg hsp, compiledPiece, if_neg hstar, if_neg hsp]
      rw [replaceEscStar_cons_quoteMeta b p]
      rfl

theorem parseCompiledPiece (b : Nat) (t : GoStr) :
    parseSegsCore (compiledPiece b ++ t)
      = (parseSegsCore t).map (fun segs => starToWild b :: segs) := by
  by_cases hstar : b = 0x2A
  · subst hstar
    simp only [compiledPiece, if_pos rfl, starToWild]
    simp [parseSegsCore]
  · by_cases hsp : b ∈ specialBytes
    · simp only [compiledPiece, if_neg hstar, if_pos hsp, starToWild, if_neg hstar,
        List.cons_append, List.nil_append]
      rw [parseSegsCore.eq_def]
      simp [hsp]
    · have hb28 : b ≠ 0x28 := fun h => hsp (h ▸ (by decide))
      have hb5c : b ≠ 0x5C := fun h => hsp (h ▸ (by decide))
      simp only [compiledPiece, if_neg hstar, if_neg hsp, starToWild, List.cons_append,
        List.nil_append]
      rw [parseSegsCore.eq_def]
      simp [hb28, hb5c, hsp]

theorem compile_core (p : GoStr) :
    parseSegsCore (replaceEscStar (quoteMeta p)) = Except.ok (p.map starToWild) := by
  induction p with
  | nil => rfl
  | cons b rest ih =>
      rw [replace_quoteMeta_cons, parseCompiledPiece, ih]
      rfl

theorem starToWild_count (p : GoStr) :
    (p.map starToWild).count Seg.wild = p.count 0x2A := by
  induction p with
  | nil => rfl
  | cons b rest ih =>
      simp only [List.map_cons, List.count_cons, ih, starToWild]
      by_cases h : b = 0x2A
      · subst h; simp
      · simp [h]

/-- Claim C4: compiling a pattern escapes every regexp metacharacter and
then turns each escaped star into a capturing wildcard; the compiled
expression parses to the segment list that maps each source byte in place,
so it has exactly one capturing group per star of the source pattern, in
the same left-to-right order. -/
theorem claim_c4 (p : GoStr) :
    parseSegsCore (replaceEscStar (quoteMeta p)) = Except.ok (p.map starToWild) ∧
    (p.map starToWild).count Seg.wild = p.count 0x2A :=
  ⟨compile_core p, starToWild_count p⟩

theorem validUTF8_ascii_append (xs t : List Nat) (h : ∀ b ∈ xs, b ≤ 0x7F) :
    validUTF8 (xs ++ t) = validUTF8 t := by
  induction xs with
  | nil => rfl
  | cons b rest ih =>
      have hb : b ≤ 0x7F := h b (List.mem_cons_self _ _)
      have hl : leadSpec b = some (0, 0, 0) := by simp [leadSpec, hb]
      have hrest := ih (fun x hx => h x (List.mem_cons_of_mem _ hx))
      simp [validUTF8, hl, hrest]

theorem leadSpec_zero (b lo hi : Nat) (h : leadSpec b = some (0, lo, hi)) : b ≤ 0x7F := by
  unfold leadSpec at h
  split_ifs at h with h1 <;> simp_all

theorem leadSpec_pos (b k lo hi : Nat) (h : leadSpec b = some (k + 1, lo, hi)) :
    0x80 ≤ b ∧ 0x80 ≤ lo := by
  unfold leadSpec at h
  split_ifs at h
  all_goals injection h with h0
  all_goals injection h0 with ha hrest2
  all_goals injection hrest2 with hlo2 hhi2
  all_goals omega

theorem contOK_ge (lo hi c : Nat) (hlo : 0x80 ≤ lo) (h : contOK lo hi c = true) :
    0x80 ≤ c := by
  simp only [contOK, decide_eq_true_eq] at h
  omega

theorem compiledPiece_ascii (b : Nat) (hb : b ≤ 0x7F) :
    ∀ x ∈ compiledPiece b, x ≤ 0x7F := by
  intro x hx
  unfold compiledPiece at hx
  split_ifs at hx with h1 h2
  · simp at hx; omega
  · simp at hx; rcases hx with rfl | rfl <;> omega
  · simp at hx; omega

theorem replace_quoteMeta_high (b : Nat) (p : GoStr) (hb : 0x80 ≤ b) :
    replaceEscStar (quoteMeta (b :: p)) = b :: replaceEscStar (quoteMeta p) := by
  have hsp : b ∉ specialBytes := fun h => by have := special_le b h; omega
  simp only [quoteMeta, if_neg hsp]
  exact replaceEscStar_cons_quoteMeta b p

theorem valid_preserved_aux :
    ∀ n, ∀ p : GoStr, p.length ≤ n → validUTF8 p = true →
      validUTF8 (replaceEscStar (quoteMeta p)) = true := by
  intro n
  induction n with
  | zero =>
      intro p hp h
      cases p with
      | nil => rfl
      | cons b rest => simp at hp
  | succ n ih =>
      intro p hp h
      cases p with
      | nil => rfl
      | cons b rest =>
          rcases hl : leadSpec b with _ | ⟨k, lo, hi⟩
          · simp [validUTF8, hl] at h
          · rcases k with _ | _ | _ | _ | k
            · -- ascii byte
              have hb : b ≤ 0x7F := leadSpec_zero b lo hi hl
              simp only [validUTF8, hl] at h
              rw [replace_quoteMeta_cons,
                validUTF8_ascii_append _ _ (compiledPiece_ascii b hb)]
              exact ih rest (by simp at hp; omega) h
            · -- two-byte sequence
              obtain ⟨hb, hlo⟩ := leadSpec_pos b 0 lo hi hl
              simp only [validUTF8, hl] at h
              cases rest with
              | nil => simp at h
              | cons c1 r =>
                  rw [Bool.and_eq_true] at h
                  obtain ⟨hc1, hr⟩ := h
                  have hc1b : 0x80 ≤ c1 := contOK_ge lo hi c1 hlo hc1
                  rw [replace_quoteMeta_high b _ hb, replace_quoteMeta_high c1 r hc1b]
                  simp only [validUTF8, hl, hc1, Bool.true_and]
                  exact ih r (by simp at hp; omega) hr
            · -- three-byte sequence
              obtain ⟨hb, hlo⟩ := leadSpec_pos b 1 lo hi hl
              simp only [validUTF8, hl] at h
              cases rest with
              | nil => simp at h
              | cons c1 r1 =>
                  cases r1 with
                  | nil => simp at h
                  | cons c2 r =>
                      rw [Bool.and_eq_true, Bool.and_eq_true] at h
                      obtain ⟨⟨hc1, hc2⟩, hr⟩ := h
                      have hc1b : 0x80 ≤ c1 := contOK_ge lo hi c1 hlo hc1
                      have hc2b : 0x80 ≤ c2 := contOK_ge 0x80 0xBF c2 (by omega) hc2
                      rw [replace_quoteMeta_high b _ hb, replace_quoteMeta_high c1 _ hc1b,
                        replace_quoteMeta_high c2 r hc2b]
                      simp only [validUTF8, hl, hc1, hc2, Bool.true_and]
                      exact ih r (by simp at hp; omega) hr
            · -- four-byte sequence
              obtain ⟨hb, hlo⟩ := leadSpec_pos b 2 lo hi hl
              simp only [validUTF8, hl] at h
              cases rest with
              | nil => simp at h
              | cons c1 r1 =>
                  cases r1 with
                  | nil => simp at h
                  | cons c2 r2 =>
                      cases r2 with
                      | nil => simp at h
                      | cons c3 r =>
                          rw [Bool.and_eq_true, Bool.and_eq_true, Bool.and_eq_true] at h
                          obtain ⟨⟨⟨hc1, hc2⟩, hc3⟩, hr⟩ := h
                          have hc1b : 0x80 ≤ c1 := contOK_ge lo hi c1 hlo hc1
                          have hc2b : 0x80 ≤ c2 := contOK_ge 0x80 0xBF c2 (by omega) hc2
                          have hc3b : 0x80 ≤ c3 := contOK_ge 0x80 0xBF c3 (by omega) hc3
                          rw [replace_quoteMeta_high b _ hb, replace_quoteMeta_high c1 _ hc1b,
                            replace_quoteMeta_high c2 _ hc2b, replace_quoteMeta_high c3 r hc3b]
                          simp only [validUTF8, hl, hc1, hc2, hc3, Bool.true_and]
                          exact ih r (by simp at hp; omega) hr
            · -- impossible continuation count
              simp only [validUTF8, hl] at h
              exact absurd h (by decide)

theorem valid_preserved (p : GoStr) (h : validUTF8 p = true) :
    validUTF8 (replaceEscStar (quoteMeta p)) = true :=
  valid_preserved_aux p.length p (Nat.le_refl _) h

theorem regexpCompile_ok (p : GoStr) (h : validUTF8 p = true) :
    regexpCompile (replaceEscStar (quoteMeta p)) = Except.ok (p.map starToWild) := by
  unfold regexpCompile
  rw [if_pos (valid_preserved p h), compile_core]

theorem compileLoop_ok (ps : List GoStr) (h : ∀ p ∈ ps, validUTF8 p = true) :
    compileLoop ps = Except.ok (ps.map (fun p => p.map starToWild)) := by
  induction ps with
  | nil => rfl
  | cons p rest ih =>
      have h1 := regexpCompile_ok p (h p (List.mem_cons_self _ _))
      have h2 := ih (fun q hq => h q (List.mem_cons_of_mem _ hq))
      simp [compileLoop, h1, h2, Except.map]

/-- Claim C9 (amended): for every pattern list made of valid UTF-8 strings,
compilation of every pattern succeeds, so the error branches of
pairToAggregation and of newAggregateAttributesProcessor are not taken on
such configurations; on byte sequences that are not valid UTF-8 the
compiler does fail (see the counterexample). -/
theorem claim_c9_amended :
    (∀ pair : aggregationPair, (∀ p ∈ pair.Patterns, validUTF8 p = true) →
      pairToAggregation pair = Except.ok (aggregation.mk pair.Attribute
        (pair.Patterns.map (fun p => p.map starToWild)))) ∧
    (∀ config : List aggregationPair,
      (∀ pair ∈ config, ∀ p ∈ pair.Patterns, validUTF8 p = true) →
      ∃ proc, newAggregateAttributesProcessor config = Except.ok proc) := by
  have hpair : ∀ pair : aggregationPair, (∀ p ∈ pair.Patterns, validUTF8 p = true) →
      pairToAggregation pair = Except.ok (aggregation.mk pair.Attribute
        (pair.Patterns.map (fun p => p.map starToWild))) := by
    intro pair h
    unfold pairToAggregation
    rw [compileLoop_ok pair.Patterns h]
    rfl
  refine ⟨hpair, ?_⟩
  intro config h
  suffices hs : ∃ aggs, buildAggregations config = Except.ok aggs by
    obtain ⟨aggs, ha⟩ := hs
    exact ⟨aggregateAttributesProcessor.mk aggs, by
      unfold newAggregateAttributesProcessor
      rw [ha]
      rfl⟩
  induction config with
  | nil => exact ⟨[], rfl⟩
  | cons pair rest ih =>
      obtain ⟨aggs, ha⟩ := ih (fun q hq p hp => h q (List.mem_cons_of_mem _ hq) p hp)
      have hbuild : buildAggregations (pair :: rest) = Except.ok
          (aggregation.mk pair.Attribute
            (pair.Patterns.map (fun p => p.map starToWild)) :: aggs) := by
        simp [buildAggregations, hpair pair (h pair (List.mem_cons_self _ _)), ha, Except.map]
      exact ⟨_, hbuild⟩

/-- Counterexample to claim C9 as stated: the byte 0xFF is a Go string that
is not valid UTF-8, and compiling the pattern consisting of that byte fails,
so the error branch of pairToAggregation is reachable. -/
theorem claim_c9_counterexample :
    pairToAggregation (aggregationPair.mk (strBytes ("a")) [[0xFF]])
      = Except.error ("error parsing regexp: invalid UTF-8") := rfl

/-- Witness for claim C9 (amended) at the concrete pod rule. -/
theorem claim_c9_witness :
    pairToAggregation podPair = Except.ok (aggregation.mk podPair.Attribute
      (podPair.Patterns.map (fun p => p.map starToWild))) :=
  claim_c9_amended.1 podPair (by decide)

theorem buildAggregations_append_error (pre : List aggregationPair)
    (pair : aggregationPair) (post : List aggregationPair) (e : String)
    (hpre : ∀ q ∈ pre, ∃ a, pairToAggregation q = Except.ok a)
    (herr : pairToAggregation pair = Except.error e) :
    buildAggregations (pre ++ pair :: post) = Except.error e := by
  induction pre with
  | nil => simp [buildAggregations, herr]
  | cons q pre2 ih =>
      obtain ⟨a, ha⟩ := hpre q (List.mem_cons_self _ _)
      have h2 := ih (fun q2 hq2 => hpre q2 (List.mem_cons_of_mem _ hq2))
      simp [buildAggregations, ha, h2, Except.map]

theorem buildAggregations_all_ok (config : List aggregationPair)
    (h : ∀ pair ∈ config, ∃ a, pairToAggregation pair = Except.ok a) :
    ∃ aggs, buildAggregations config = Except.ok aggs ∧
      List.Forall₂ (fun pair agg => pairToAggregation pair = Except.ok agg) config aggs := by
  induction config with
  | nil => exact ⟨[], rfl, List.Forall₂.nil⟩
  | cons pair rest ih =>
      obtain ⟨a, ha⟩ := h pair (List.mem_cons_self _ _)
      obtain ⟨aggs, haggs, hall⟩ := ih (fun q hq => h q (List.mem_cons_of_mem _ hq))
      exact ⟨a :: aggs,
        by simp [buildAggregations, ha, haggs, Except.map],
        List.Forall₂.cons ha hall⟩

/-- Claim C5: if compiling the patterns of some rule fails while every rule
before it compiles, the whole construction returns that first error and no
processor; if every rule compiles, construction succeeds with the compiled
rules in configured order. -/
theorem claim_c5 :
    (∀ (pre : List aggregationPair) (pair : aggregationPair)
      (post : List aggregationPair) (e : String),
      (∀ q ∈ pre, ∃ a, pairToAggregation q = Except.ok a) →
      pairToAggregation pair = Except.error e →
      newAggregateAttributesProcessor (pre ++ pair :: post) = Except.error e) ∧
    (∀ config : List aggregationPair,
      (∀ pair ∈ config, ∃ a, pairToAggregation pair = Except.ok a) →
      ∃ aggs, newAggregateAttributesProcessor config
          = Except.ok (aggregateAttributesProcessor.mk aggs) ∧
        List.Forall₂ (fun pair agg => pairToAggregation pair = Except.ok agg) config aggs) := by
  constructor
  · intro pre pair post e hpre herr
    unfold newAggregateAttributesProcessor
    rw [buildAggregations_append_error pre pair post e hpre herr]
    rfl
  · intro config h
    obtain ⟨aggs, ha, hall⟩ := buildAggregations_all_ok config h
    refine ⟨aggs, ?_, hall⟩
    unfold newAggregateAttributesProcessor
    rw [ha]
    rfl

/-- Witness for claim C5: a failing rule aborts construction with its
error, and an all-valid configuration builds the processor. -/
theorem claim_c5_witness :
    newAggregateAttributesProcessor [badPair]
        = Except.error ("error parsing regexp: invalid UTF-8") ∧
    ∃ aggs, newAggregateAttributesProcessor [podPair]
        = Except.ok (aggregateAttributesProcessor.mk aggs) ∧
      List.Forall₂ (fun pair agg => pairToAggregation pair = Except.ok agg) [podPair] aggs := by
  constructor
  · exact claim_c5.1 [] badPair [] _ (fun q hq => absurd hq (List.not_mem_nil q)) rfl
  · exact claim_c5.2 [podPair] (by
      intro pair hp
      rw [List.mem_singleton] at hp
      subst hp
      exact ⟨_, rfl⟩)

theorem tryWildDown_isSome (f : List Nat → Option (List GoStr)) (s : List Nat)
    (n j : Nat) (hj : j ≤ n) (h : (tryCap f s j).isSome = true) :
    (tryWildDown f s n).isSome = true := by
  induction n with
  | zero =>
      have hj0 : j = 0 := Nat.le_zero.mp hj
      subst hj0
      simpa [tryWildDown] using h
  | succ n ih =>
      rcases Nat.eq_or_lt_of_le hj with rfl | hlt
      · simp only [tryWildDown]
        cases hc : tryCap f s (n + 1) with
        | some r => simp
        | none => rw [hc] at h; simp at h
      · have hj2 : j ≤ n := Nat.lt_succ_iff.mp hlt
        simp only [tryWildDown]
        cases hc : tryCap f s (n + 1) with
        | some r => simp
        | none => exact ih hj2

theorem anySplitCap_exists (g : List Nat → Bool) (s : List Nat) (n : Nat)
    (h : anySplitCap g s n = true) :
    ∃ k, k ≤ n ∧ 0x0A ∉ s.take k ∧ g (s.drop k) = true := by
  induction n with
  | zero =>
      simp only [anySplitCap, List.take_zero, List.drop_zero] at h
      rw [Bool.and_eq_true] at h
      exact ⟨0, Nat.le_refl 0, by simp, h.2⟩
  | succ n ih =>
      simp only [anySplitCap, Bool.or_eq_true] at h
      rcases h with h1 | h2
      · rw [Bool.and_eq_true] at h1
        obtain ⟨hnot, hg⟩ := h1
        refine ⟨n + 1, Nat.le_refl _, ?_, hg⟩
        simpa using hnot
      · obtain ⟨k, hk, hnm, hg⟩ := ih h2
        exact ⟨k, Nat.le_succ_of_le hk, hnm, hg⟩

theorem exactMatch_matchHere (segs : CompiledRegex) :
    ∀ s2 s3, exactMatch segs s2 = true → (matchHere segs (s2 ++ s3)).isSome = true := by
  induction segs with
  | nil =>
      intro s2 s3 h
      have h2 : s2 = [] := by simpa [exactMatch, List.isEmpty_iff] using h
      subst h2
      rfl
  | cons seg rest ih =>
      cases seg with
      | lit b =>
          intro s2 s3 h
          cases s2 with
          | nil => simp [exactMatch] at h
          | cons d ds =>
              simp only [exactMatch, Bool.and_eq_true, decide_eq_true_eq] at h
              simp only [List.cons_append, matchHere]
              rw [if_pos h.1]
              exact ih ds s3 h.2
      | wild =>
          intro s2 s3 h
          simp only [exactMatch] at h
          obtain ⟨k, hk, hnm, hg⟩ := anySplitCap_exists _ _ _ h
          simp only [matchHere]
          apply tryWildDown_isSome _ _ _ k
            (le_trans hk (by simp [List.length_append]))
          unfold tryCap
          have htake : (s2 ++ s3).take k = s2.take k := by
            rw [List.take_append_eq_append_take]
            simp [Nat.sub_eq_zero_of_le hk]
          have hdrop : (s2 ++ s3).drop k = s2.drop k ++ s3 := by
            rw [List.drop_append_eq_append_drop]
            simp [Nat.sub_eq_zero_of_le hk]
          rw [htake, hdrop, if_neg hnm]
          have hrec := ih (s2.drop k) s3 hg
          cases hmh : matchHere rest (s2.drop k ++ s3) with
          | some caps => simp [hmh]
          | none => rw [hmh] at hrec; simp at hrec

theorem matchHere_findFrom (segs : CompiledRegex) :
    ∀ (pre s : List Nat), (matchHere segs s).isSome = true →
      (findFrom segs (pre ++ s)).isSome = true := by
  intro pre
  induction pre with
  | nil =>
      intro s h
      cases s with
      | nil => simpa [findFrom] using h
      | cons a t =>
          simp only [List.nil_append, findFrom]
          cases hm : matchHere segs (a :: t) with
          | some caps => simp
          | none => rw [hm] at h; simp at h
  | cons a pre2 ih =>
      intro s h
      simp only [List.cons_append, findFrom]
      cases hm : matchHere segs (a :: (pre2 ++ s)) with
      | some caps => simp
      | none => exact ih s h

/-- Claim C10: the compiled matcher is unanchored: any key containing a
whole-pattern match as a substring is accepted by the search the executor
performs, not only keys matched in their entirety. -/
theorem claim_c10 (p : GoStr) (segs : CompiledRegex) (s1 s2 s3 : List Nat)
    (_hcompile : regexpCompile (replaceEscStar (quoteMeta p)) = Except.ok segs)
    (hmatch : exactMatch segs s2 = true) :
    (findFrom segs (s1 ++ s2 ++ s3)).isSome = true := by
  have h1 := exactMatch_matchHere segs s2 s3 hmatch
  have h2 := matchHere_findFrom segs s1 (s2 ++ s3) h1
  simpa [List.append_assoc] using h2

/-- Witness for claim C10: the matcher compiled from pod_* accepts the key
my_pod_x, which only contains a match of the pattern as a substring. -/
theorem claim_c10_witness :
    (findFrom podRegex (strBytes ("my_") ++ strBytes ("pod_x") ++ [])).isSome = true :=
  claim_c10 (strBytes ("pod_*")) podRegex (strBytes ("my_")) (strBytes ("pod_x")) []
    rfl (by decide)

theorem mapLookup_put_self (m : AttrMap) (k : GoStr) (v : AttributeValue) :
    mapLookup (mapPut m k v) k = some v := by
  induction m with
  | nil => simp [mapPut, mapLookup]
  | cons kv rest ih =>
      obtain ⟨k2, w⟩ := kv
      by_cases h : k2 = k
      · subst h; simp [mapPut, mapLookup]
      · simp [mapPut, mapLookup, h, ih]

theorem mapLookup_put_other (m : AttrMap) (a b : GoStr) (v : AttributeValue)
    (h : a ≠ b) : mapLookup (mapPut m a v) b = mapLookup m b := by
  induction m with
  | nil => simp [mapPut, mapLookup, h]
  | cons kv rest ih =>
      obtain ⟨k2, w⟩ := kv
      by_cases h2 : k2 = a
      · subst h2
        simp [mapPut, mapLookup, h]
      · by_cases h3 : k2 = b
        · subst h3; simp [mapPut, mapLookup, h2]
        · simp [mapPut, mapLookup, h2, h3, ih]

theorem mapLookup_eq_none (m : AttrMap) (k : GoStr) (h : k ∉ m.map Prod.fst) :
    mapLookup m k = none := by
  induction m with
  | nil => rfl
  | cons kv rest ih =>
      obtain ⟨k2, w⟩ := kv
      simp only [List.map_cons, List.mem_cons] at h
      push_neg at h
      have hne : ¬k2 = k := fun he => h.1 he.symm
      simp [mapLookup, hne, ih h.2]

theorem foldl_put_frame (pairs : List (GoStr × AttributeValue)) (acc : AttrMap)
    (k : GoStr) (h : k ∉ pairs.map Prod.fst) :
    mapLookup (pairs.foldl (fun tm p => mapPut tm p.1 p.2) acc) k = mapLookup acc k := by
  induction pairs generalizing acc with
  | nil => rfl
  | cons p rest ih =>
      simp only [List.map_cons, List.mem_cons] at h
      push_neg at h
      rw [List.foldl_cons, ih (mapPut acc p.1 p.2) h.2,
        mapLookup_put_other acc p.1 k p.2 (fun he => h.1 he.symm)]

theorem buildTarget_lookup (pairs : List (GoStr × AttributeValue)) (d : GoStr)
    (v : AttributeValue) (hmem : (d, v) ∈ pairs) (hnd : (pairs.map Prod.fst).Nodup) :
    mapLookup (buildTarget pairs) d = some v := by
  suffices hgen : ∀ acc, mapLookup
      (pairs.foldl (fun tm p => mapPut tm p.1 p.2) acc) d = some v from hgen []
  induction pairs with
  | nil => exact absurd hmem (List.not_mem_nil _)
  | cons p rest ih =>
      intro acc
      simp only [List.map_cons, List.nodup_cons] at hnd
      rcases List.mem_cons.mp hmem with heq | hrest
      · subst heq
        rw [List.foldl_cons, foldl_put_frame rest _ d hnd.1, mapLookup_put_self]
      · exact ih hrest hnd.2 (mapPut acc p.1 p.2)

theorem scanPattern_kept_subset (regex : CompiledRegex) (m : AttrMap) :
    ∀ kv ∈ (scanPattern regex m).2.2, kv ∈ m := by
  induction m with
  | nil => intro kv h; simp [scanPattern] at h
  | cons kv0 rest ih =>
      obtain ⟨k0, v0⟩ := kv0
      intro kv h
      simp only [scanPattern] at h
      cases hf : findFrom regex k0 with
      | some caps =>
          rw [hf] at h
          simp only at h
          exact List.mem_cons_of_mem _ (ih kv h)
      | none =>
          rw [hf] at h
          simp only [List.mem_cons] at h
          rcases h with heq | h2
          · exact heq ▸ List.mem_cons_self _ _
          · exact List.mem_cons_of_mem _ (ih kv h2)

theorem scanPattern_kept_not_matched (regex : CompiledRegex) (m : AttrMap) (k : GoStr)
    (hs : (findFrom regex k).isSome = true) :
    k ∉ ((scanPattern regex m).2.2).map Prod.fst := by
  induction m with
  | nil => simp [scanPattern]
  | cons kv0 rest ih =>
      obtain ⟨k0, v0⟩ := kv0
      simp only [scanPattern]
      cases hf : findFrom regex k0 with
      | some caps => simpa using ih
      | none =>
          simp only [List.map_cons, List.mem_cons]
          intro h
          rcases h with heq | h2
          · subst heq; rw [hf] at hs; simp at hs
          · exact ih h2

theorem scanPattern_kept_mem (regex : CompiledRegex) (m : AttrMap) (k : GoStr)
    (v : AttributeValue) (hmem : (k, v) ∈ m) (hf : findFrom regex k = none) :
    (k, v) ∈ (scanPattern regex m).2.2 := by
  induction m with
  | nil => exact absurd hmem (List.not_mem_nil _)
  | cons kv0 rest ih =>
      obtain ⟨k0, v0⟩ := kv0
      simp only [scanPattern]
      rcases List.mem_cons.mp hmem with heq | h2
      · injection heq with h1 h2
        subst h1
        subst h2
        simp only [hf]
        exact List.mem_cons_self _ _
      · cases hf0 : findFrom regex k0 with
        | some caps => simpa using ih h2
        | none => exact List.mem_cons_of_mem _ (ih h2)

theorem zip_append_of_length (l1 l2 : List GoStr) (r1 r2 : List AttributeValue)
    (h : l1.length = r1.length) :
    (l1 ++ l2).zip (r1 ++ r2) = l1.zip r1 ++ l2.zip r2 := by
  induction l1 generalizing r1 with
  | nil =>
      cases r1 with
      | nil => simp
      | cons a t => simp at h
  | cons a t ih =>
      cases r1 with
      | nil => simp at h
      | cons b u =>
          simp only [List.length_cons] at h
          have h2 : t.length = u.length := by omega
          simp [List.zip_cons_cons, ih u h2]

theorem scanPattern_zip_mem (regex : CompiledRegex) (m : AttrMap) (k : GoStr)
    (v : AttributeValue) (caps : List GoStr)
    (hmem : (k, v) ∈ m) (hf : findFrom regex k = some caps) :
    (joinUnderscore caps, v) ∈ ((scanPattern regex m).1).zip ((scanPattern regex m).2.1) := by
  induction m with
  | nil => exact absurd hmem (List.not_mem_nil _)
  | cons kv0 rest ih =>
      obtain ⟨k0, v0⟩ := kv0
      simp only [scanPattern]
      rcases List.mem_cons.mp hmem with heq | h2
      · injection heq with h1 h2
        subst h1
        subst h2
        simp only [hf, List.zip_cons_cons]
        exact List.mem_cons_self _ _
      · cases hf0 : findFrom regex k0 with
        | some caps0 =>
            simp only [List.zip_cons_cons]
            exact List.mem_cons_of_mem _ (ih h2)
        | none => exact ih h2

theorem ruleScan_kept_subset (rgxs : List CompiledRegex) (m : AttrMap) :
    ∀ kv ∈ (ruleScan rgxs m).2.2, kv ∈ m := by
  induction rgxs generalizing m with
  | nil => intro kv h; simpa [ruleScan] using h
  | cons regex rest ih =>
      intro kv h
      simp only [ruleScan] at h
      exact scanPattern_kept_subset regex m kv (ih _ kv h)

theorem ruleScan_absent (rgxs : List CompiledRegex) (m : AttrMap) (k : GoStr)
    (v : AttributeValue) (caps : List GoStr)
    (hmem : (k, v) ∈ m) (hfm : firstMatchCaps rgxs k = some caps) :
    k ∉ ((ruleScan rgxs m).2.2).map Prod.fst := by
  induction rgxs generalizing m caps with
  | nil => simp [firstMatchCaps] at hfm
  | cons regex rest ih =>
      simp only [ruleScan]
      cases hf : findFrom regex k with
      | some caps2 =>
          intro hin
          rcases List.mem_map.mp hin with ⟨kv2, hkv2, hfst⟩
          have hkv2m : kv2 ∈ (scanPattern regex m).2.2 :=
            ruleScan_kept_subset rest _ kv2 hkv2
          exact scanPattern_kept_not_matched regex m k (by simp [hf])
            (List.mem_map.mpr ⟨kv2, hkv2m, hfst⟩)
      | none =>
          simp only [firstMatchCaps, hf] at hfm
          exact ih _ _ (scanPattern_kept_mem regex m k v hmem hf) hfm

theorem ruleScan_zip_mem (rgxs : List CompiledRegex) (m : AttrMap) (k : GoStr)
    (v : AttributeValue) (caps : List GoStr)
    (hmem : (k, v) ∈ m) (hfm : firstMatchCaps rgxs k = some caps) :
    (joinUnderscore caps, v) ∈ ((ruleScan rgxs m).1).zip ((ruleScan rgxs m).2.1) := by
  induction rgxs generalizing m caps with
  | nil => simp [firstMatchCaps] at hfm
  | cons regex rest ih =>
      simp only [ruleScan]
      rw [zip_append_of_length _ _ _ _ (scanPattern_length regex m)]
      cases hf : findFrom regex k with
      | some caps2 =>
          have hcaps : caps2 = caps := by
            simp only [firstMatchCaps, hf] at hfm
            exact Option.some.inj hfm
          subst hcaps
          exact List.mem_append_left _ (scanPattern_zip_mem regex m k v caps2 hmem hf)
      | none =>
          simp only [firstMatchCaps, hf] at hfm
          exact List.mem_append_right _
            (ih _ _ (scanPattern_kept_mem regex m k v hmem hf) hfm)

/-- Counterexample to claim C2 as stated, in two parts.  First, derived-key
collision: the key q_x of the collection matches the first pattern with
derived key x and value the string 1, yet after the rule is processed the
slot collection-agg-x holds the string 2 (the later extraction with the same
derived key overwrote it), so the value of q_x is not present at the claimed
place.  Second, a matched key equal to the target name: the key p_x matches
the pattern of a rule whose target attribute is also p_x, and after the rule
is processed p_x is still a top-level key (it holds the nested map), so a
matched key is not always absent from the top-level collection. -/
theorem claim_c2_counterexample :
    ((strBytes ("q_x"), AttributeValue.str (strBytes ("1"))) ∈ cexMap ∧
    firstMatchCaps cexAgg.patternRegexes (strBytes ("q_x")) = some [strBytes ("x")] ∧
    processAggregation cexAgg cexMap = Except.ok cexOut ∧
    lookupNested cexOut cexAgg.«attribute» (joinUnderscore [strBytes ("x")])
      = some (AttributeValue.str (strBytes ("2"))) ∧
    AttributeValue.str (strBytes ("2")) ≠ AttributeValue.str (strBytes ("1"))) ∧
    ((strBytes ("p_x"), AttributeValue.str (strBytes ("2"))) ∈ cexMap2 ∧
    firstMatchCaps cexAgg2.patternRegexes (strBytes ("p_x")) = some [strBytes ("x")] ∧
    processAggregation cexAgg2 cexMap2 = Except.ok cexOut2 ∧
    mapLookup cexOut2 (strBytes ("p_x"))
      = some (AttributeValue.map [(strBytes ("x"), AttributeValue.str (strBytes ("2")))]) ∧
    (mapLookup cexOut2 (strBytes ("p_x"))).isSome = true) := by
  refine ⟨⟨List.mem_cons_self _ _, rfl, rfl, rfl, ?_⟩,
    List.mem_cons_self _ _, rfl, rfl, rfl, rfl⟩
  intro h
  injection h with h2
  exact absurd h2 (by decide)

/-- Claim C2 (amended): after the executor processes one rule, provided the
derived keys of the rule extraction buffer are pairwise distinct and the
matched key is not the target name itself, every key that matched some
pattern of the rule is absent from the top-level collection and its value is
present at collection-target-derivedKey.  When derived keys collide the
later extraction wins instead, and a matched key equal to the target name
remains at top level holding the nested map (see the counterexample for
both failure modes); a pre-existing unmatched key named like the target is
simply overwritten and needs no proviso. -/
theorem claim_c2_amended (agg : aggregation) (m : AttrMap) (k : GoStr)
    (v : AttributeValue) (caps : List GoStr)
    (hkne : k ≠ agg.«attribute»)
    (hnodup : ((ruleScan agg.patternRegexes m).1).Nodup)
    (hmem : (k, v) ∈ m)
    (hfm : firstMatchCaps agg.patternRegexes k = some caps) :
    ∃ res, processAggregation agg m = Except.ok res ∧
      mapLookup res k = none ∧
      lookupNested res agg.«attribute» (joinUnderscore caps) = some v := by
  have hzip : (joinUnderscore caps, v) ∈
      ((ruleScan agg.patternRegexes m).1).zip ((ruleScan agg.patternRegexes m).2.1) :=
    ruleScan_zip_mem agg.patternRegexes m k v caps hmem hfm
  have hlen : ((ruleScan agg.patternRegexes m).1).length
      = ((ruleScan agg.patternRegexes m).2.1).length := ruleScan_length _ _
  have hne : ((ruleScan agg.patternRegexes m).1).isEmpty = false := by
    cases hn : (ruleScan agg.patternRegexes m).1 with
    | nil => rw [hn] at hzip; simp at hzip
    | cons a t => simp
  have habsent : k ∉ ((ruleScan agg.patternRegexes m).2.2).map Prod.fst :=
    ruleScan_absent agg.patternRegexes m k v caps hmem hfm
  refine ⟨mapPut (ruleScan agg.patternRegexes m).2.2 agg.«attribute»
      (AttributeValue.map (buildTarget
        (((ruleScan agg.patternRegexes m).1).zip ((ruleScan agg.patternRegexes m).2.1)))),
    ?_, ?_, ?_⟩
  · simp only [processAggregation, hne, Bool.false_eq_true, if_false]
    rw [if_pos hlen]
  · rw [mapLookup_put_other _ _ _ _ (fun he => hkne he.symm)]
    exact mapLookup_eq_none _ _ habsent
  · unfold lookupNested
    rw [mapLookup_put_self]
    refine buildTarget_lookup _ _ _ hzip ?_
    rw [List.map_fst_zip _ _ (Nat.le_of_eq hlen)]
    exact hnodup

/-- Witness for claim C2 (amended) at the single-wildcard example, for the
matched key pod_first. -/
theorem claim_c2_witness :
    ∃ res, processAggregation (aggregation.mk (strBytes ("pods")) [podRegex]) c1Input
        = Except.ok res ∧
      mapLookup res (strBytes ("pod_first")) = none ∧
      lookupNested res (strBytes ("pods")) (joinUnderscore [strBytes ("first")])
        = some (AttributeValue.str (strBytes ("first"))) :=
  claim_c2_amended (aggregation.mk (strBytes ("pods")) [podRegex]) c1Input
    (strBytes ("pod_first")) (AttributeValue.str (strBytes ("first"))) [strBytes ("first")]
    (by decide) (by decide) (List.mem_cons_self _ _) (by decide)
